import Mathlib

/-!
Verification of the union-closed well-graded family algorithms
(uc_well_graded.py).

Data model: an element is a natural number, a set is a `Finset ℕ`, and a
family is a `Finset (Finset ℕ)` (content equality, no duplicates), mirroring
the source's frozensets inside a set.

Loops of the source that iterate over a hash set are embedded either as
order-independent `Finset` operations (when each loop body commutes) or as
recursion over an explicit enumeration list, with theorems quantifying over
every enumeration of the set.
-/

/-- Embedding of `project_family(sets, X)`: for each set `A` in `sets`, add
`A \ X` to the projected family.  The source's loop over the hash set only
inserts into a result set, so its value is the image, independent of order. -/
def project_family (sets : Finset (Finset ℕ)) (X : Finset ℕ) : Finset (Finset ℕ) :=
  sets.image fun A => A \ X

/-- Embedding of the `universe` accumulation at the top of `get_surmise`:
the union of all member sets of the family. -/
def fam_universe (sets : Finset (Finset ℕ)) : Finset ℕ :=
  sets.sup id

/-- The per-element surmise value: the inclusion-minimal members of `sets`
containing `q`.  Theorems `q_update_eq_q_step`, `q_step_get_surmise_insert`
and `surmise_run_eq` below prove that the incremental loop of the source's
`get_surmise` computes exactly this set for every iteration order, so the
downstream functions use this order-independent value directly. -/
def get_surmise (sets : Finset (Finset ℕ)) (q : ℕ) : Finset (Finset ℕ) :=
  sets.filter fun A => q ∈ A ∧ ∀ B ∈ sets, q ∈ B → ¬ B ⊂ A

/-- Embedding of `has_unique_atoms(sets)`: over all elements `q` of the
universe, compare the total number of (element, minimal set) associations
in the surmise system with the number of distinct sets appearing in it. -/
def has_unique_atoms (sets : Finset (Finset ℕ)) : Bool :=
  ((fam_universe sets).sum fun q => (get_surmise sets q).card) ==
    ((fam_universe sets).biUnion fun q => get_surmise sets q).card

/-- Embedding of `is_well_graded(sets, base)`: the base is iterated in some
enumeration order (the argument list); for each generator `b` the projected
family is tested with `has_unique_atoms`, returning false at the first
failure and true when the list is exhausted. -/
def is_well_graded (sets : Finset (Finset ℕ)) : List (Finset ℕ) → Bool
  | [] => true
  | b :: rest =>
    if has_unique_atoms (project_family sets b) then is_well_graded sets rest
    else false

/-- Embedding of `is_X_closed(sets, X)`: the loop over ordered pairs of
distinct members with an early `return False` computes the decision of the
quantified statement. -/
def is_X_closed (sets : Finset (Finset ℕ)) (X : Finset ℕ) : Bool :=
  decide (∀ A ∈ sets, ∀ B ∈ sets.erase A, X ⊂ A ∩ B → A ∩ B ∈ sets)

/-- One pass of the closure loop in `create_family_from_base`: starting from
the snapshot `fam`, add `a ∪ b` for every `a` in the snapshot and `b` in the
base.  All insertions go into a set, so the pass is order-independent. -/
def close_step (base fam : Finset (Finset ℕ)) : Finset (Finset ℕ) :=
  fam ∪ fam.biUnion fun a => base.image fun b => a ∪ b

/-- The `while curr_size > prev_size` loop of `create_family_from_base`,
with explicit fuel.  State: current family and the previous size counter. -/
def close_loop (base : Finset (Finset ℕ)) : ℕ → Finset (Finset ℕ) → ℕ → Finset (Finset ℕ)
  | 0, fam, _ => fam
  | n + 1, fam, prev =>
    if prev < fam.card then close_loop base n (close_step base fam) fam.card
    else fam

/-- Embedding of `create_family_from_base(base)`.  The family always stays
inside the powerset of the union of the base, so `2 ^ |⋃ base| + 1` rounds
of fuel are enough for the size to stabilize (`close_loop_fix` below); with
that much fuel the fuelled loop returns exactly the fixpoint the unbounded
`while` loop of the source reaches. -/
def create_family_from_base (base : Finset (Finset ℕ)) : Finset (Finset ℕ) :=
  close_loop base (2 ^ ((base.sup id).card) + 1) base 0

/-- The inner loop of `get_surmise` over a snapshot (`q_surmise.copy()`) of
the current retained sets, in snapshot order: a retained strict superset of
the candidate is removed; at a retained strict subset the candidate is
dominated and scanning stops; the flag reports whether the candidate is
still minimal. -/
def inner_scan (curr : Finset ℕ) : List (Finset ℕ) → Finset (Finset ℕ) → Finset (Finset ℕ) × Bool
  | [], qs => (qs, true)
  | s :: rest, qs =>
    if curr ⊂ s then inner_scan curr rest (qs.erase s)
    else if s ⊂ curr then (qs, false)
    else inner_scan curr rest qs

/-- One candidate step of `get_surmise`'s per-element loop: when the
retained collection is nonempty, scan the snapshot `snap` and insert the
candidate if it survived; when it is empty, insert the candidate. -/
def q_update (curr : Finset ℕ) (snap : List (Finset ℕ)) (qs : Finset (Finset ℕ)) : Finset (Finset ℕ) :=
  if 0 < qs.card then
    let r := inner_scan curr snap qs
    if r.2 then insert curr r.1 else r.1
  else insert curr qs

/-- The order-free description of one candidate step: keep everything not
strictly above the candidate and add the candidate, unless a retained set
is strictly below it. -/
def q_step (curr : Finset ℕ) (qs : Finset (Finset ℕ)) : Finset (Finset ℕ) :=
  if ∃ s ∈ qs, s ⊂ curr then qs
  else insert curr (qs.filter fun t => ¬ curr ⊂ t)

/-- A run of the per-element loop of `get_surmise` for element `q` over the
family in some visit order: `SurmiseRun q l qs out` holds when processing
the members in the order of `l`, starting from retained collection `qs`,
can end with collection `out`.  Members not containing `q` are skipped; for
the others the inner loop scans some enumeration `snap` of the current
retained collection (the snapshot order of a hash set is arbitrary, so the
relation quantifies over it). -/
inductive SurmiseRun (q : ℕ) : List (Finset ℕ) → Finset (Finset ℕ) → Finset (Finset ℕ) → Prop where
  | nil : ∀ qs, SurmiseRun q [] qs qs
  | skip : ∀ curr rest qs out, q ∉ curr → SurmiseRun q rest qs out →
      SurmiseRun q (curr :: rest) qs out
  | proc : ∀ curr rest qs out snap, q ∈ curr → snap.Nodup → snap.toFinset = qs →
      SurmiseRun q rest (q_update curr snap qs) out →
      SurmiseRun q (curr :: rest) qs out

/-- Embedding of the projection label built in `is_well_graded` (line
`curr_proj_str = 'F\' + '{' + ','.join(str(n) for n in b) + '}'`): the
elements are joined in the order the set `b` is iterated, which is the
enumeration list passed here. -/
def proj_label (b_enum : List ℕ) : String :=
  "F\\" ++ "\x7b" ++ String.intercalate "," (b_enum.map toString) ++ "\x7d"


/-- C7: projection never enlarges a family, and projecting twice by the
same `X` gives the same family as projecting once. -/
theorem project_family_card_le_and_idem (F : Finset (Finset ℕ)) (X : Finset ℕ) :
    (project_family F X).card ≤ F.card ∧
      project_family (project_family F X) X = project_family F X := by
  constructor
  · exact Finset.card_image_le
  · unfold project_family
    rw [Finset.image_image]
    apply Finset.image_congr
    intro A _
    simp [Function.comp, sdiff_idem]

/-- C9: every member of a projected family is disjoint from the projected-out
set `X`. -/
theorem project_family_disjoint (F : Finset (Finset ℕ)) (X : Finset ℕ)
    (A : Finset ℕ) (hA : A ∈ project_family F X) : A ∩ X = ∅ := by
  rcases Finset.mem_image.mp hA with ⟨B, _, rfl⟩
  exact Finset.sdiff_inter_self X B

/-- Witness for C9 at a concrete input: `∅` is a member of the projection of
`{{1}}` by `{1}` and is disjoint from `{1}`. -/
theorem project_family_disjoint_witness :
    (∅ : Finset ℕ) ∩ {1} = ∅ :=
  project_family_disjoint {{1}} {1} ∅ (by decide)

/-- C10: with an empty base (whose only enumeration is the empty list)
`is_well_graded` returns true for every family, and its value does not
depend on the family at all — no projection is computed. -/
theorem is_well_graded_empty_base (F G : Finset (Finset ℕ)) :
    is_well_graded F [] = true ∧ is_well_graded F [] = is_well_graded G [] := by
  exact ⟨rfl, rfl⟩

/-- A set is generated by the base when it is the union of some subfamily of
the base (the empty subfamily giving `∅`, used only as an auxiliary bound). -/
def gen_by (base : Finset (Finset ℕ)) (A : Finset ℕ) : Prop :=
  ∃ s : Finset (Finset ℕ), s ⊆ base ∧ A = s.sup id

lemma subset_close_step (base fam : Finset (Finset ℕ)) : fam ⊆ close_step base fam :=
  Finset.subset_union_left

lemma union_mem_close_step (base fam : Finset (Finset ℕ)) {a b : Finset ℕ}
    (ha : a ∈ fam) (hb : b ∈ base) : a ∪ b ∈ close_step base fam := by
  refine Finset.mem_union_right _ (Finset.mem_biUnion.mpr ⟨a, ha, ?_⟩)
  exact Finset.mem_image.mpr ⟨b, hb, rfl⟩

lemma close_step_subset_of_closed (base fam G : Finset (Finset ℕ))
    (hG : ∀ A ∈ G, ∀ B ∈ G, A ∪ B ∈ G) (hbase : base ⊆ G) (hfam : fam ⊆ G) :
    close_step base fam ⊆ G := by
  intro A hA
  rcases Finset.mem_union.mp hA with h | h
  · exact hfam h
  · rcases Finset.mem_biUnion.mp h with ⟨a, ha, hA2⟩
    rcases Finset.mem_image.mp hA2 with ⟨b, hb, rfl⟩
    exact hG a (hfam ha) b (hbase hb)

lemma close_loop_subset_of_closed (base G : Finset (Finset ℕ))
    (hG : ∀ A ∈ G, ∀ B ∈ G, A ∪ B ∈ G) (hbase : base ⊆ G) :
    ∀ (n : ℕ) (fam : Finset (Finset ℕ)) (prev : ℕ), fam ⊆ G →
      close_loop base n fam prev ⊆ G := by
  intro n
  induction n with
  | zero => intro fam prev h; exact h
  | succ n ih =>
    intro fam prev h
    unfold close_loop
    by_cases hlt : prev < fam.card
    · simp only [hlt, if_true]
      exact ih _ _ (close_step_subset_of_closed base fam G hG hbase h)
    · simp only [hlt, if_false]
      exact h

lemma subset_close_loop (base : Finset (Finset ℕ)) :
    ∀ (n : ℕ) (fam : Finset (Finset ℕ)) (prev : ℕ), fam ⊆ close_loop base n fam prev := by
  intro n
  induction n with
  | zero => intro fam prev; exact Finset.Subset.refl _
  | succ n ih =>
    intro fam prev
    unfold close_loop
    by_cases hlt : prev < fam.card
    · simp only [hlt, if_true]
      exact (subset_close_step base fam).trans (ih _ _)
    · simp only [hlt, if_false]
      exact Finset.Subset.refl _

lemma close_step_gen (base fam : Finset (Finset ℕ))
    (h : ∀ A ∈ fam, gen_by base A) : ∀ A ∈ close_step base fam, gen_by base A := by
  intro A hA
  rcases Finset.mem_union.mp hA with hA | hA
  · exact h A hA
  · rcases Finset.mem_biUnion.mp hA with ⟨a, ha, hA2⟩
    rcases Finset.mem_image.mp hA2 with ⟨b, hb, rfl⟩
    rcases h a ha with ⟨s, hs, rfl⟩
    refine ⟨insert b s, Finset.insert_subset_iff.mpr ⟨hb, hs⟩, ?_⟩
    have h3 : (insert b s).sup id = id b ⊔ s.sup id := Finset.sup_insert
    rw [h3]
    simp [Finset.sup_eq_union, Finset.union_comm]

lemma close_loop_gen (base : Finset (Finset ℕ)) :
    ∀ (n : ℕ) (fam : Finset (Finset ℕ)) (prev : ℕ), (∀ A ∈ fam, gen_by base A) →
      ∀ A ∈ close_loop base n fam prev, gen_by base A := by
  intro n
  induction n with
  | zero => intro fam prev h; exact h
  | succ n ih =>
    intro fam prev h
    unfold close_loop
    by_cases hlt : prev < fam.card
    · simp only [hlt, if_true]
      exact ih _ _ (close_step_gen base fam h)
    · simp only [hlt, if_false]
      exact h

lemma gen_by_subset_sup (base : Finset (Finset ℕ)) {A : Finset ℕ} (h : gen_by base A) :
    A ⊆ base.sup id := by
  rcases h with ⟨s, hs, rfl⟩
  intro x hx
  rcases Finset.mem_sup.mp hx with ⟨A, hA, hxA⟩
  exact Finset.mem_sup.mpr ⟨A, hs hA, hxA⟩

lemma card_le_pow_of_gen (base fam : Finset (Finset ℕ))
    (h : ∀ A ∈ fam, gen_by base A) : fam.card ≤ 2 ^ ((base.sup id).card) := by
  have hsub : fam ⊆ (base.sup id).powerset := by
    intro A hA
    exact Finset.mem_powerset.mpr (gen_by_subset_sup base (h A hA))
  calc fam.card ≤ ((base.sup id).powerset).card := Finset.card_le_card hsub
    _ = 2 ^ ((base.sup id).card) := Finset.card_powerset _

lemma close_loop_fix (base : Finset (Finset ℕ)) :
    ∀ (n : ℕ) (fam : Finset (Finset ℕ)) (prev : ℕ),
      (∀ A ∈ fam, gen_by base A) →
      (fam.card ≤ prev → close_step base fam = fam) →
      2 ^ ((base.sup id).card) + 1 ≤ n + prev →
      close_step base (close_loop base n fam prev) = close_loop base n fam prev := by
  intro n
  induction n with
  | zero =>
    intro fam prev hgen hfix hfuel
    have hcard : fam.card ≤ prev := by
      have := card_le_pow_of_gen base fam hgen
      omega
    exact hfix hcard
  | succ n ih =>
    intro fam prev hgen hfix hfuel
    unfold close_loop
    by_cases hlt : prev < fam.card
    · simp only [hlt, if_true]
      refine ih (close_step base fam) fam.card (close_step_gen base fam hgen) ?_ ?_
      · intro hle
        have hsub := subset_close_step base fam
        have heq : fam = close_step base fam := Finset.eq_of_subset_of_card_le hsub hle
        rw [← heq]
        exact heq.symm
      · omega
    · simp only [hlt, if_false]
      have hcard : fam.card ≤ prev := Nat.le_of_not_lt hlt
      exact hfix hcard

lemma create_family_gen (base : Finset (Finset ℕ)) :
    ∀ A ∈ create_family_from_base base, gen_by base A := by
  apply close_loop_gen
  intro A hA
  exact ⟨{A}, Finset.singleton_subset_iff.mpr hA, by simp⟩

lemma create_family_fix (base : Finset (Finset ℕ)) :
    close_step base (create_family_from_base base) = create_family_from_base base := by
  apply close_loop_fix
  · intro A hA
    exact ⟨{A}, Finset.singleton_subset_iff.mpr hA, by simp⟩
  · intro hle
    have hempty : base = ∅ := Finset.card_eq_zero.mp (Nat.le_zero.mp hle)
    subst hempty
    simp [close_step]
  · omega

lemma create_family_union_base (base : Finset (Finset ℕ)) {A b : Finset ℕ}
    (hA : A ∈ create_family_from_base base) (hb : b ∈ base) :
    A ∪ b ∈ create_family_from_base base := by
  have := union_mem_close_step base (create_family_from_base base) hA hb
  rwa [create_family_fix base] at this

lemma base_subset_create_family (base : Finset (Finset ℕ)) :
    base ⊆ create_family_from_base base :=
  subset_close_loop base _ base 0

lemma create_family_union_sup (base : Finset (Finset ℕ)) :
    ∀ s : Finset (Finset ℕ), s ⊆ base →
      ∀ A ∈ create_family_from_base base, A ∪ s.sup id ∈ create_family_from_base base := by
  intro s
  induction s using Finset.induction_on with
  | empty =>
    intro _ A hA
    simpa using hA
  | insert hb ih =>
    rename_i b t
    intro hsub A hA
    have hbbase : b ∈ base := hsub (Finset.mem_insert_self b t)
    have htbase : t ⊆ base := fun x hx => hsub (Finset.mem_insert_of_mem hx)
    have h1 : A ∪ b ∈ create_family_from_base base := create_family_union_base base hA hbbase
    have h2 := ih htbase (A ∪ b) h1
    rw [Finset.sup_insert]
    have h3 : A ∪ (id b ⊔ t.sup id) = (A ∪ b) ∪ t.sup id := by
      simp [Finset.sup_eq_union, Finset.union_assoc]
    rw [h3]
    exact h2

lemma create_family_union_closed (base : Finset (Finset ℕ)) :
    ∀ A ∈ create_family_from_base base, ∀ B ∈ create_family_from_base base,
      A ∪ B ∈ create_family_from_base base := by
  intro A hA B hB
  rcases create_family_gen base B hB with ⟨s, hs, rfl⟩
  exact create_family_union_sup base s hs A hA

/-- C1: the family returned by `create_family_from_base` is union-closed,
contains the base, and is contained in every union-closed family that
contains the base — it is the smallest union-closed family over the base. -/
theorem create_family_from_base_correct (base : Finset (Finset ℕ)) :
    (∀ A ∈ create_family_from_base base, ∀ B ∈ create_family_from_base base,
        A ∪ B ∈ create_family_from_base base) ∧
      base ⊆ create_family_from_base base ∧
      ∀ G : Finset (Finset ℕ), (∀ A ∈ G, ∀ B ∈ G, A ∪ B ∈ G) → base ⊆ G →
        create_family_from_base base ⊆ G := by
  refine ⟨create_family_union_closed base, base_subset_create_family base, ?_⟩
  intro G hG hbase
  exact close_loop_subset_of_closed base G hG hbase _ base 0 hbase

/-- Witness for C1 at a concrete input: the closure of `{{1},{2}}` is
contained in the union-closed family `{{1},{2},{1,2}}` containing the base. -/
theorem create_family_from_base_correct_witness :
    create_family_from_base {{1}, {2}} ⊆ ({{1}, {2}, {1, 2}} : Finset (Finset ℕ)) :=
  (create_family_from_base_correct {{1}, {2}}).2.2 {{1}, {2}, {1, 2}}
    (by decide) (by decide)

/-- C6: the closure engine is idempotent — closing an already-closed family
returns it unchanged. -/
theorem create_family_from_base_idem (base : Finset (Finset ℕ)) :
    create_family_from_base (create_family_from_base base) =
      create_family_from_base base := by
  apply Finset.Subset.antisymm
  · exact close_loop_subset_of_closed (create_family_from_base base)
      (create_family_from_base base) (create_family_union_closed base)
      (Finset.Subset.refl _) _ _ 0 (Finset.Subset.refl _)
  · exact base_subset_create_family (create_family_from_base base)

lemma fam_subset_of_ssubset {a b : Finset ℕ} (h : a ⊂ b) : a ⊆ b :=
  (Finset.ssubset_def.mp h).1

lemma fam_ssubset_trans {a b c : Finset ℕ} (h1 : a ⊂ b) (h2 : b ⊂ c) : a ⊂ c := by
  rw [Finset.ssubset_def] at h1 h2 ⊢
  exact ⟨h1.1.trans h2.1, fun hc => h2.2 (hc.trans h1.1)⟩

lemma fam_ssubset_of_subset_of_ssubset {a b c : Finset ℕ} (h1 : a ⊆ b) (h2 : b ⊂ c) : a ⊂ c := by
  rw [Finset.ssubset_def] at h2 ⊢
  exact ⟨h1.trans h2.1, fun hc => h2.2 (hc.trans h1)⟩

lemma fam_ssubset_irrefl (a : Finset ℕ) : ¬ a ⊂ a := fun h =>
  (Finset.ssubset_def.mp h).2 (Finset.Subset.refl a)

lemma get_surmise_antichain (F : Finset (Finset ℕ)) (q : ℕ) :
    ∀ A ∈ get_surmise F q, ∀ B ∈ get_surmise F q, ¬ A ⊂ B := by
  intro A hA B hB hAB
  rcases Finset.mem_filter.mp hA with ⟨hAF, hqA, _⟩
  rcases Finset.mem_filter.mp hB with ⟨_, _, hBmin⟩
  exact hBmin A hAF hqA hAB

lemma inner_scan_of_no_sub (curr : Finset ℕ) :
    ∀ (snap : List (Finset ℕ)) (qs : Finset (Finset ℕ)),
      (∀ s ∈ snap, ¬ s ⊂ curr) →
      inner_scan curr snap qs = (qs.filter fun t => ¬ (curr ⊂ t ∧ t ∈ snap), true) := by
  intro snap
  induction snap with
  | nil =>
    intro qs _
    have hfe : (qs.filter fun t => ¬ (curr ⊂ t ∧ t ∈ ([] : List (Finset ℕ)))) = qs := by
      ext t; simp
    rw [hfe]
    rfl
  | cons s rest ih =>
    intro qs h
    have hs : ¬ s ⊂ curr := h s (List.mem_cons_self s rest)
    have hrest : ∀ x ∈ rest, ¬ x ⊂ curr := fun x hx => h x (List.mem_cons_of_mem s hx)
    by_cases hcs : curr ⊂ s
    · have hstep : inner_scan curr (s :: rest) qs = inner_scan curr rest (qs.erase s) := by
        simp [inner_scan, hcs]
      rw [hstep, ih (qs.erase s) hrest]
      refine congrArg (fun x => (x, true)) ?_
      ext t
      simp only [Finset.mem_filter, Finset.mem_erase, List.mem_cons]
      by_cases hts : t = s
      · subst hts
        simp [hcs]
      · constructor
        · rintro ⟨⟨_, ht⟩, hmem⟩
          exact ⟨ht, by tauto⟩
        · rintro ⟨ht, hmem⟩
          exact ⟨⟨hts, ht⟩, by tauto⟩
    · have hstep : inner_scan curr (s :: rest) qs = inner_scan curr rest qs := by
        simp [inner_scan, hcs, hs]
      rw [hstep, ih qs hrest]
      refine congrArg (fun x => (x, true)) ?_
      ext t
      simp only [Finset.mem_filter, List.mem_cons]
      by_cases hts : t = s
      · subst hts
        constructor
        · rintro ⟨ht, _⟩
          exact ⟨ht, by tauto⟩
        · rintro ⟨ht, _⟩
          exact ⟨ht, by tauto⟩
      · constructor
        · rintro ⟨ht, hmem⟩
          exact ⟨ht, by tauto⟩
        · rintro ⟨ht, hmem⟩
          exact ⟨ht, by tauto⟩

lemma inner_scan_of_sub (curr : Finset ℕ) :
    ∀ (snap : List (Finset ℕ)) (qs : Finset (Finset ℕ)),
      (∀ t ∈ qs, ¬ curr ⊂ t) → (∀ t ∈ snap, t ∈ qs) → (∃ s ∈ snap, s ⊂ curr) →
      inner_scan curr snap qs = (qs, false) := by
  intro snap
  induction snap with
  | nil =>
    intro qs _ _ h3
    rcases h3 with ⟨s, hs, _⟩
    exact absurd hs (List.not_mem_nil s)
  | cons s rest ih =>
    intro qs h1 h2 h3
    have hsqs : s ∈ qs := h2 s (List.mem_cons_self s rest)
    have hncs : ¬ curr ⊂ s := h1 s hsqs
    by_cases hsc : s ⊂ curr
    · simp [inner_scan, hncs, hsc]
    · have hrest : ∃ x ∈ rest, x ⊂ curr := by
        rcases h3 with ⟨x, hx, hxc⟩
        rcases List.mem_cons.mp hx with rfl | hx2
        · exact absurd hxc hsc
        · exact ⟨x, hx2, hxc⟩
      have hstep : inner_scan curr (s :: rest) qs = inner_scan curr rest qs := by
        simp [inner_scan, hncs, hsc]
      rw [hstep]
      exact ih qs h1 (fun x hx => h2 x (List.mem_cons_of_mem s hx)) hrest

lemma q_update_eq_q_step (curr : Finset ℕ) (snap : List (Finset ℕ)) (qs : Finset (Finset ℕ))
    (hac : ∀ a ∈ qs, ∀ b ∈ qs, ¬ a ⊂ b) (hsnap : snap.toFinset = qs) :
    q_update curr snap qs = q_step curr qs := by
  by_cases h0 : 0 < qs.card
  · by_cases hex : ∃ s ∈ qs, s ⊂ curr
    · rcases hex with ⟨s, hs, hssub⟩
      have h1 : ∀ t ∈ qs, ¬ curr ⊂ t := by
        intro t ht hct
        exact hac s hs t ht (fam_ssubset_trans hssub hct)
      have h2 : ∀ t ∈ snap, t ∈ qs := by
        intro t ht
        rw [← hsnap]
        exact List.mem_toFinset.mpr ht
      have h3 : ∃ x ∈ snap, x ⊂ curr := by
        refine ⟨s, ?_, hssub⟩
        rw [← hsnap] at hs
        exact List.mem_toFinset.mp hs
      have hex2 : ∃ x ∈ qs, x ⊂ curr := ⟨s, hs, hssub⟩
      unfold q_update q_step
      rw [if_pos h0, inner_scan_of_sub curr snap qs h1 h2 h3, if_pos hex2]
      rfl
    · have hno : ∀ s ∈ snap, ¬ s ⊂ curr := by
        intro s hs hsub
        refine hex ⟨s, ?_, hsub⟩
        rw [← hsnap]
        exact List.mem_toFinset.mpr hs
      unfold q_update q_step
      rw [if_pos h0, inner_scan_of_no_sub curr snap qs hno, if_neg hex]
      show insert curr (qs.filter fun t => ¬ (curr ⊂ t ∧ t ∈ snap)) =
        insert curr (qs.filter fun t => ¬ curr ⊂ t)
      congr 1
      apply Finset.filter_congr
      intro t ht
      have htsnap : t ∈ snap := by
        rw [← hsnap] at ht
        exact List.mem_toFinset.mp ht
      simp [htsnap]
  · have h0e : qs.card = 0 := by omega
    have hqs : qs = ∅ := Finset.card_eq_zero.mp h0e
    subst hqs
    simp [q_update, q_step]

lemma exists_minimal_below :
    ∀ (n : ℕ) (S : Finset (Finset ℕ)) (q : ℕ) (A : Finset ℕ), A.card ≤ n → A ∈ S → q ∈ A →
      ∃ m ∈ get_surmise S q, m ⊆ A := by
  intro n
  induction n with
  | zero =>
    intro S q A hcard hAS hqA
    have hA : A = ∅ := Finset.card_eq_zero.mp (Nat.le_zero.mp hcard)
    subst hA
    exact absurd hqA (Finset.not_mem_empty q)
  | succ n ih =>
    intro S q A hcard hAS hqA
    by_cases hmin : ∀ B ∈ S, q ∈ B → ¬ B ⊂ A
    · exact ⟨A, Finset.mem_filter.mpr ⟨hAS, hqA, hmin⟩, Finset.Subset.refl A⟩
    · push_neg at hmin
      rcases hmin with ⟨B, hBS, hqB, hBA⟩
      have hlt : B.card < A.card := Finset.card_lt_card hBA
      rcases ih S q B (by omega) hBS hqB with ⟨m, hm, hmB⟩
      exact ⟨m, hm, hmB.trans (fam_subset_of_ssubset hBA)⟩

lemma get_surmise_insert_not_mem (S : Finset (Finset ℕ)) (q : ℕ) (curr : Finset ℕ)
    (hq : q ∉ curr) : get_surmise (insert curr S) q = get_surmise S q := by
  ext A
  simp only [get_surmise, Finset.mem_filter, Finset.mem_insert]
  constructor
  · rintro ⟨hA | hA, hqA, hmin⟩
    · subst hA
      exact absurd hqA hq
    · exact ⟨hA, hqA, fun B hB hqB => hmin B (Or.inr hB) hqB⟩
  · rintro ⟨hA, hqA, hmin⟩
    refine ⟨Or.inr hA, hqA, ?_⟩
    rintro B (rfl | hB) hqB
    · exact absurd hqB hq
    · exact hmin B hB hqB

lemma q_step_get_surmise_insert (S : Finset (Finset ℕ)) (q : ℕ) (curr : Finset ℕ)
    (hq : q ∈ curr) : q_step curr (get_surmise S q) = get_surmise (insert curr S) q := by
  by_cases hex : ∃ s ∈ get_surmise S q, s ⊂ curr
  · unfold q_step
    rw [if_pos hex]
    rcases hex with ⟨s, hsmem, hscurr⟩
    rcases Finset.mem_filter.mp hsmem with ⟨hsS, hqs, _⟩
    ext A
    simp only [get_surmise, Finset.mem_filter, Finset.mem_insert]
    constructor
    · rintro ⟨hAS, hqA, hAmin⟩
      refine ⟨Or.inr hAS, hqA, ?_⟩
      rintro B (rfl | hB) hqB hBA
      · exact hAmin s hsS hqs (fam_ssubset_trans hscurr hBA)
      · exact hAmin B hB hqB hBA
    · rintro ⟨hA | hAS, hqA, hAmin⟩
      · subst hA
        exact absurd hscurr (hAmin s (Or.inr hsS) hqs)
      · exact ⟨hAS, hqA, fun B hB hqB => hAmin B (Or.inr hB) hqB⟩
  · unfold q_step
    rw [if_neg hex]
    ext A
    simp only [get_surmise, Finset.mem_insert, Finset.mem_filter]
    by_cases hA : A = curr
    · subst hA
      constructor
      · intro _
        refine ⟨Or.inl rfl, hq, ?_⟩
        rintro B (rfl | hB) hqB hBA
        · exact fam_ssubset_irrefl B hBA
        · rcases exists_minimal_below B.card S q B (le_refl _) hB hqB with ⟨m, hm, hmB⟩
          exact hex ⟨m, hm, fam_ssubset_of_subset_of_ssubset hmB hBA⟩
      · intro _
        exact Or.inl rfl
    · constructor
      · rintro (rfl | ⟨⟨hAS, hqA, hAmin⟩, hnca⟩)
        · exact absurd rfl hA
        · refine ⟨Or.inr hAS, hqA, ?_⟩
          rintro B (rfl | hB) hqB hBA
          · exact hnca hBA
          · exact hAmin B hB hqB hBA
      · rintro ⟨hA2 | hAS, hqA, hAmin⟩
        · exact absurd hA2 hA
        · exact Or.inr ⟨⟨hAS, hqA, fun B hB hqB => hAmin B (Or.inr hB) hqB⟩,
            hAmin curr (Or.inl rfl) hq⟩

lemma surmise_run_eq (q : ℕ) :
    ∀ (l : List (Finset ℕ)) (qs out : Finset (Finset ℕ)),
      SurmiseRun q l qs out → ∀ S : Finset (Finset ℕ), qs = get_surmise S q →
        out = get_surmise (S ∪ l.toFinset) q := by
  intro l qs out hrun
  induction hrun with
  | nil qs =>
    intro S hS
    simpa using hS
  | skip curr rest qs out hqc hrun ih =>
    intro S hS
    rw [ih S hS, List.toFinset_cons, Finset.union_insert]
    exact (get_surmise_insert_not_mem _ q curr hqc).symm
  | proc curr rest qs out snap hqc hnd hsnap hrun ih =>
    intro S hS
    have hac : ∀ a ∈ qs, ∀ b ∈ qs, ¬ a ⊂ b := by
      rw [hS]
      exact get_surmise_antichain S q
    have hupd : q_update curr snap qs = get_surmise (insert curr S) q := by
      rw [q_update_eq_q_step curr snap qs hac hsnap, hS]
      exact q_step_get_surmise_insert S q curr hqc
    have hsets : insert curr S ∪ rest.toFinset = S ∪ (curr :: rest).toFinset := by
      rw [List.toFinset_cons, Finset.union_insert, Finset.insert_union]
    rw [ih (insert curr S) hupd, hsets]

/-- C2: for every element of the universe of a family and every visit order
over the family, the per-element loop of `get_surmise` ends with exactly the
inclusion-minimal members containing that element: every returned set
contains `q` and belongs to the family, every minimal member containing `q`
is returned, and no two returned sets are subset-comparable. -/
theorem get_surmise_run_correct (F : Finset (Finset ℕ)) (q : ℕ) (l : List (Finset ℕ))
    (out : Finset (Finset ℕ)) (hq : q ∈ fam_universe F) (hl : l.toFinset = F)
    (hnd : l.Nodup) (hrun : SurmiseRun q l ∅ out) :
    out = get_surmise F q ∧
      (∀ A ∈ out, q ∈ A ∧ A ∈ F) ∧
      (∀ A ∈ F, q ∈ A → (∀ B ∈ F, q ∈ B → ¬ B ⊂ A) → A ∈ out) ∧
      (∀ A ∈ out, ∀ B ∈ out, A ≠ B → ¬ A ⊆ B) := by
  have h0 : (∅ : Finset (Finset ℕ)) = get_surmise ∅ q := by
    simp [get_surmise]
  have hout : out = get_surmise F q := by
    have := surmise_run_eq q l ∅ out hrun ∅ h0
    rwa [Finset.empty_union, hl] at this
  refine ⟨hout, ?_, ?_, ?_⟩
  · intro A hA
    rw [hout] at hA
    rcases Finset.mem_filter.mp hA with ⟨hAF, hqA, _⟩
    exact ⟨hqA, hAF⟩
  · intro A hAF hqA hmin
    rw [hout]
    exact Finset.mem_filter.mpr ⟨hAF, hqA, hmin⟩
  · intro A hA B hB hne hsub
    rw [hout] at hA hB
    rcases Finset.mem_filter.mp hA with ⟨hAF, hqA, _⟩
    rcases Finset.mem_filter.mp hB with ⟨_, _, hBmin⟩
    exact hBmin A hAF hqA
      (Finset.ssubset_def.mpr ⟨hsub, fun h => hne (Finset.Subset.antisymm hsub h)⟩)

/-- Witness for C2 at a concrete input: running the surmise loop for element
1 over the family `{{1},{1,2}}` in the listed order returns `{{1}}`, the
minimal member containing 1. -/
theorem get_surmise_run_correct_witness :
    ({{1}} : Finset (Finset ℕ)) = get_surmise {{1}, {1, 2}} 1 ∧
      (∀ A ∈ ({{1}} : Finset (Finset ℕ)),
        1 ∈ A ∧ A ∈ ({{1}, {1, 2}} : Finset (Finset ℕ))) ∧
      (∀ A ∈ ({{1}, {1, 2}} : Finset (Finset ℕ)), 1 ∈ A →
        (∀ B ∈ ({{1}, {1, 2}} : Finset (Finset ℕ)), 1 ∈ B → ¬ B ⊂ A) →
          A ∈ ({{1}} : Finset (Finset ℕ))) ∧
      (∀ A ∈ ({{1}} : Finset (Finset ℕ)), ∀ B ∈ ({{1}} : Finset (Finset ℕ)),
        A ≠ B → ¬ A ⊆ B) := by
  have h1 : q_update {1} [] (∅ : Finset (Finset ℕ)) = {{1}} := by decide
  have h2 : q_update {1, 2} [{1}] ({{1}} : Finset (Finset ℕ)) = {{1}} := by decide
  have hrun : SurmiseRun 1 [{1}, {1, 2}] ∅ {{1}} := by
    apply SurmiseRun.proc _ _ _ _ []
    · decide
    · exact List.nodup_nil
    · simp
    · rw [h1]
      apply SurmiseRun.proc _ _ _ _ [{1}]
      · decide
      · simp
      · decide
      · rw [h2]
        exact SurmiseRun.nil _
  exact get_surmise_run_correct {{1}, {1, 2}} 1 [{1}, {1, 2}] {{1}}
    (by decide) (by decide) (by decide) hrun

lemma is_well_graded_eq_all (F : Finset (Finset ℕ)) :
    ∀ l : List (Finset ℕ), is_well_graded F l = true ↔
      ∀ b ∈ l, has_unique_atoms (project_family F b) = true := by
  intro l
  induction l with
  | nil => simp [is_well_graded]
  | cons b rest ih =>
    by_cases hb : has_unique_atoms (project_family F b) = true
    · simp only [is_well_graded, hb, if_true, ih, List.mem_cons]
      constructor
      · rintro h x (rfl | hx)
        · exact hb
        · exact h x hx
      · intro h x hx
        exact h x (Or.inr hx)
    · rw [show is_well_graded F (b :: rest) = false from by simp [is_well_graded, hb]]
      constructor
      · intro h
        exact absurd h (by simp)
      · intro hall
        exact absurd (hall b (List.mem_cons_self b rest)) hb

/-- C3: for every enumeration of the base, `is_well_graded` returns true
exactly when every projection of the family by a generator passes
`has_unique_atoms`, and it returns false whenever some generator's
projection fails the unique-atoms test. -/
theorem is_well_graded_correct (F base : Finset (Finset ℕ)) (l : List (Finset ℕ))
    (hl : l.toFinset = base) (hnd : l.Nodup) :
    (is_well_graded F l = true ↔
        ∀ b ∈ base, has_unique_atoms (project_family F b) = true) ∧
      (∀ b ∈ base, has_unique_atoms (project_family F b) = false →
        is_well_graded F l = false) := by
  have hmem : ∀ b : Finset ℕ, b ∈ base ↔ b ∈ l := by
    intro b
    rw [← hl]
    exact List.mem_toFinset
  constructor
  · rw [is_well_graded_eq_all F l]
    constructor
    · intro h b hb
      exact h b ((hmem b).mp hb)
    · intro h b hb
      exact h b ((hmem b).mpr hb)
  · intro b hb hfalse
    rcases Bool.eq_false_or_eq_true (is_well_graded F l) with h | h
    · have htrue := (is_well_graded_eq_all F l).mp h b ((hmem b).mp hb)
      rw [htrue] at hfalse
      exact absurd hfalse (by decide)
    · exact h

/-- Witness for C3 at a concrete input: the family `{∅,{1},{1,2}}` with base
`{{1}}` is well-graded. -/
theorem is_well_graded_correct_witness :
    is_well_graded {∅, {1}, {1, 2}} [{1}] = true :=
  ((is_well_graded_correct {∅, {1}, {1, 2}} {{1}} [{1}] (by decide) (by decide)).1).mpr
    (by decide)

lemma sum_card_biUnion_lt (s : Finset ℕ) (t : ℕ → Finset (Finset ℕ)) (q r : ℕ)
    (hq : q ∈ s) (hr : r ∈ s) (hqr : q ≠ r) (A : Finset ℕ)
    (hAq : A ∈ t q) (hAr : A ∈ t r) :
    (s.biUnion t).card < ∑ x ∈ s, (t x).card := by
  have hsub : s.biUnion t ⊆ ((s.erase q).biUnion t) ∪ (t q).erase A := by
    intro B hB
    rcases Finset.mem_biUnion.mp hB with ⟨x, hx, hBx⟩
    by_cases hxq : x = q
    · subst hxq
      by_cases hBA : B = A
      · subst hBA
        exact Finset.mem_union_left _
          (Finset.mem_biUnion.mpr ⟨r, Finset.mem_erase.mpr ⟨Ne.symm hqr, hr⟩, hAr⟩)
      · exact Finset.mem_union_right _ (Finset.mem_erase.mpr ⟨hBA, hBx⟩)
    · exact Finset.mem_union_left _
        (Finset.mem_biUnion.mpr ⟨x, Finset.mem_erase.mpr ⟨hxq, hx⟩, hBx⟩)
  have h1 : (s.biUnion t).card ≤ ((s.erase q).biUnion t).card + ((t q).erase A).card :=
    le_trans (Finset.card_le_card hsub) (Finset.card_union_le _ _)
  have h2 : ((s.erase q).biUnion t).card ≤ ∑ x ∈ s.erase q, (t x).card :=
    Finset.card_biUnion_le
  have h3 : ((t q).erase A).card = (t q).card - 1 := Finset.card_erase_of_mem hAq
  have h4 : 1 ≤ (t q).card := Finset.card_pos.mpr ⟨A, hAq⟩
  have h5 : ∑ x ∈ s.erase q, (t x).card + (t q).card = ∑ x ∈ s, (t x).card :=
    Finset.sum_erase_add s _ hq
  omega

/-- C4: `has_unique_atoms` returns true iff the total number of
(element, minimal set) associations equals the number of distinct minimal
sets — equivalently, iff no set belongs to the surmise of two different
elements. -/
theorem has_unique_atoms_iff (F : Finset (Finset ℕ)) :
    (has_unique_atoms F = true ↔
        ((fam_universe F).sum fun q => (get_surmise F q).card) =
          ((fam_universe F).biUnion fun q => get_surmise F q).card) ∧
      (has_unique_atoms F = true ↔
        ∀ q ∈ fam_universe F, ∀ r ∈ fam_universe F, q ≠ r →
          ∀ A ∈ get_surmise F q, A ∉ get_surmise F r) := by
  have hcount : has_unique_atoms F = true ↔
      ((fam_universe F).sum fun q => (get_surmise F q).card) =
        ((fam_universe F).biUnion fun q => get_surmise F q).card := by
    unfold has_unique_atoms
    exact beq_iff_eq
  refine ⟨hcount, hcount.trans ?_⟩
  constructor
  · intro heq q hq r hr hqr A hAq hAr
    have hlt : ((fam_universe F).biUnion fun x => get_surmise F x).card <
        (fam_universe F).sum fun x => (get_surmise F x).card :=
      sum_card_biUnion_lt (fam_universe F) (fun x => get_surmise F x)
        q r hq hr hqr A hAq hAr
    omega
  · intro hdisj
    refine (Finset.card_biUnion ?_).symm
    intro x hx y hy hxy
    rw [Finset.disjoint_left]
    intro A hAx hAy
    exact hdisj x hx y hy hxy A hAx hAy

/-- Witness for C4 at a concrete input: `{∅,{1},{2}}` has unique atoms. -/
theorem has_unique_atoms_iff_witness : has_unique_atoms {∅, {1}, {2}} = true :=
  ((has_unique_atoms_iff {∅, {1}, {2}}).1).mpr (by decide)

/-- C5: `is_X_closed` returns true iff for every ordered pair of distinct
members whose intersection strictly contains `X` the intersection is a
member, and it returns false iff some such pair violates this. -/
theorem is_X_closed_iff (F : Finset (Finset ℕ)) (X : Finset ℕ) :
    (is_X_closed F X = true ↔
        ∀ A ∈ F, ∀ B ∈ F, A ≠ B → X ⊂ A ∩ B → A ∩ B ∈ F) ∧
      (is_X_closed F X = false ↔
        ∃ A ∈ F, ∃ B ∈ F, A ≠ B ∧ X ⊂ A ∩ B ∧ A ∩ B ∉ F) := by
  have h1 : is_X_closed F X = true ↔
      ∀ A ∈ F, ∀ B ∈ F, A ≠ B → X ⊂ A ∩ B → A ∩ B ∈ F := by
    unfold is_X_closed
    rw [decide_eq_true_eq]
    constructor
    · intro h A hA B hB hne hX
      exact h A hA B (Finset.mem_erase.mpr ⟨Ne.symm hne, hB⟩) hX
    · intro h A hA B hB hX
      rcases Finset.mem_erase.mp hB with ⟨hBA, hBF⟩
      exact h A hA B hBF (Ne.symm hBA) hX
  refine ⟨h1, ?_⟩
  constructor
  · intro hfalse
    by_contra hno
    push_neg at hno
    have htrue := h1.mpr hno
    exact absurd (htrue.symm.trans hfalse) (by decide)
  · rintro ⟨A, hA, B, hB, hne, hX, hnot⟩
    rcases Bool.eq_false_or_eq_true (is_X_closed F X) with h | h
    · exact absurd (h1.mp h A hA B hB hne hX) hnot
    · exact h

/-- Witness for C5 at a concrete input: `{{1,2},{1,3},{1}}` is ∅-closed. -/
theorem is_X_closed_iff_witness : is_X_closed {{1, 2}, {1, 3}, {1}} ∅ = true :=
  ((is_X_closed_iff {{1, 2}, {1, 3}, {1}} ∅).1).mpr (by decide)

/-- C8 (counterexample): the claim that the projection label joins the
elements of the generator in ascending sorted order — formally, that for
every enumeration `l` of a generator `b` the label equals the one built
from the ascending enumeration of `b` — fails concretely: `[2,1]` is a
valid enumeration of the set `{1,2}` (set iteration order is unspecified),
`[1,2]` is its ascending enumeration, and the two labels differ. -/
theorem proj_label_not_sorted_cex :
    ([2, 1] : List ℕ).toFinset = ({1, 2} : Finset ℕ) ∧ ([2, 1] : List ℕ).Nodup ∧
      ([1, 2] : List ℕ).toFinset = ({1, 2} : Finset ℕ) ∧ ([1, 2] : List ℕ).Nodup ∧
      List.Sorted (fun x y : ℕ => x ≤ y) [1, 2] ∧
      proj_label [2, 1] ≠ proj_label [1, 2] := by
  refine ⟨by decide, by decide, by decide, by decide, by decide, ?_⟩
  decide

/-- C8 (amended): for every generator `b`, every enumeration `l` of `b`
(the order in which the set is iterated), and the ascending enumeration
`ls` of `b`, the projection line has the format `F\` followed by the
comma-join of the elements of `b` in the iteration order, wrapped in
braces — a permutation of the ascending order, though not necessarily the
ascending order itself. -/
theorem proj_label_format (b : Finset ℕ) (l ls : List ℕ)
    (hl : l.toFinset = b) (hnd : l.Nodup)
    (hls : ls.toFinset = b) (hlsnd : ls.Nodup)
    (hsorted : List.Sorted (fun x y : ℕ => x ≤ y) ls) :
    ∃ p : List ℕ, p.Perm ls ∧
      proj_label l = "F\\" ++ "\x7b" ++ String.intercalate "," (p.map toString) ++ "\x7d" := by
  refine ⟨l, ?_, rfl⟩
  apply List.perm_of_nodup_nodup_toFinset_eq hnd hlsnd
  rw [hl, hls]

/-- Witness for C8's amended claim at a concrete input. -/
theorem proj_label_format_witness :
    ∃ p : List ℕ, p.Perm [1, 2] ∧
      proj_label [2, 1] =
        "F\\" ++ "\x7b" ++ String.intercalate "," (p.map toString) ++ "\x7d" :=
  proj_label_format {1, 2} [2, 1] [1, 2] (by decide) (by decide) (by decide) (by decide)
    (by decide)
